import Mathlib

/-!
Verification of the node-addressing layer (`storage/tree/node.go`) of a
Merkle-tree storage engine.  `NodeID` identifies a node of a binary Merkle
tree by a big-endian bit-packed byte path plus a count of significant bits.

The Go code is embedded shallowly: `[]byte` becomes `List Nat` (each entry a
byte value, well-formedness `BytesWF` states every entry is below 256), Go
`int`/`int64` arithmetic is embedded over `Nat`/`Int` with the `uint64`
casts and shifts reduced modulo 2^64 where the code performs them, and
functions that can panic on out-of-range arguments (constructors and the
prefix/suffix partitioning) return `Option`, with `none` standing for the
panic or returned error.  Methods whose panic regions are excluded by the
hypotheses of every theorem below (`MaskLeft`, `Neighbor`, `Siblings`,
`AsKey`, `Equivalent`) are embedded as total functions using the total list
operations `take`/`drop`/`set`/`getD`, which agree with the Go slicing
wherever the Go code does not panic.
-/

namespace Trillian

/-- A Go `[]byte` modelled as `List Nat` is well formed when every entry is a
byte value. -/
def BytesWF (l : List Nat) : Prop := ∀ b ∈ l, b < 256

instance (l : List Nat) : Decidable (BytesWF l) := by
  unfold BytesWF; infer_instance

/-- `NodeID` from node.go: `Path` is a big-endian bit set (the MSB of
`Path[0]` is the root child) and `PrefixLenBits` counts the significant
leading bits. -/
structure NodeID where
  Path : List Nat
  PrefixLenBits : Nat
deriving Repr, DecidableEq

/-- `PathLenBits` returns `8 * len(path)`. -/
def NodeID.PathLenBits (n : NodeID) : Nat := n.Path.length * 8

/-- `bytesForBits` returns the number of bytes required to store `numBits`
bits. -/
def bytesForBits (numBits : Nat) : Nat := (numBits + 7) / 8

/-- The `leftmask` table of node.go: bitmasks with the left `x` bits set,
indexed by `x mod 8` (index 0 is `0xFF`).  Only used to mask a last byte. -/
def leftmask (i : Nat) : Nat :=
  [0xFF, 0x80, 0xC0, 0xE0, 0xF0, 0xF8, 0xFC, 0xFE].getD i 0

/-- Go's builtin `copy(dst[off:], src)`: overwrites `dst` from position
`off` with the elements of `src`, truncating at the end of `dst`. -/
def listCopy : List Nat → Nat → List Nat → List Nat
  | [], _, _ => []
  | d :: ds, off + 1, src => d :: listCopy ds off src
  | _ :: ds, 0, s :: ss => s :: listCopy ds 0 ss
  | d :: ds, 0, [] => d :: ds

/-- The big-endian, right-aligned byte serialisation used by the
constructors of node.go: byte `i` of the result is byte `len-1-i` (counted
from the least significant end) of `v`; bytes of `v` beyond the buffer are
dropped, missing high bytes are zero. -/
def natToBytesBE (v len : Nat) : List Nat :=
  (List.range len).map fun i => (v >>> (8 * (len - 1 - i))) % 256

/-- `NewNodeIDFromHash`: `Path = hash`, `PrefixLenBits = 8*len(hash)`. -/
def NewNodeIDFromHash (h : List Nat) : NodeID :=
  { Path := h, PrefixLenBits := h.length * 8 }

/-- `NewNodeIDFromPrefix(prefix, depth, index, subDepth, totalDepth)` from
node.go.  `none` models the panics: the two `mod 8` guard panics, and the Go
slice-bound panics `subPath.Bytes()[unusedHighBytes:]` (when `subDepth/8 >
8`) and `path[len(prefix):]` (when the prefix is longer than the path
buffer).  The Go `int64` shift `index << uint(subDepth-depth)` is performed
in `uint64`, hence reduced modulo 2^64, and yields 0 when the shift amount
is 64 or more or negative (a negative `int` converts to a huge `uint`).
The horizontal index is modelled as a natural number: a negative Go index
only wraps into path-byte content, which no property below about this
constructor concerns. -/
def NewNodeIDFromPrefix (pfx : List Nat) (depth : Nat) (index : Nat)
    (subDepth totalDepth : Nat) : Option NodeID :=
  if totalDepth % 8 ≠ 0 then none
  else if subDepth % 8 ≠ 0 then none
  else if 8 < subDepth / 8 then none
  else if totalDepth / 8 < pfx.length then none
  else
    let height : Int := (subDepth : Int) - (depth : Int)
    let subIndex : Nat :=
      if 0 ≤ height ∧ height < 64 then (index * 2 ^ height.toNat) % 2 ^ 64 else 0
    let subBytes := natToBytesBE subIndex (subDepth / 8)
    let path := listCopy (listCopy (List.replicate (totalDepth / 8) 0) 0 pfx)
      pfx.length subBytes
    some { Path := path, PrefixLenBits := pfx.length * 8 + depth }

/-- `NewNodeIDFromBigInt(depth, index, totalDepth)`: the index (a
non-negative `big.Int`, modelled as `Nat`) is right-aligned into a
`totalDepth/8`-byte buffer; `PrefixLenBits = depth`.  `none` models the two
guard panics.  The word-copying loop of node.go writes exactly the low
`totalDepth/8` bytes of the index, big-endian. -/
def NewNodeIDFromBigInt (depth : Nat) (index : Nat) (totalDepth : Nat) :
    Option NodeID :=
  if totalDepth % 8 ≠ 0 then none
  else if totalDepth = 0 then none
  else some { Path := natToBytesBE index (totalDepth / 8), PrefixLenBits := depth }

/-- Binary length of a natural number, with structural fuel: the number of
bits needed to represent `x`, provided `x < 2^fuel`. -/
def bitLenAux : Nat → Nat → Nat
  | 0, _ => 0
  | fuel + 1, x => if x = 0 then 0 else bitLenAux fuel (x / 2) + 1

/-- `bits.Len64`: the minimum number of bits to represent a `uint64`. -/
def len64 (x : Nat) : Nat := bitLenAux 64 x

/-- `NewNodeIDForTreeCoords(depth, index, maxPathBits)` from node.go.
`bits.Len64(uint64(index))` is embedded as `len64` of the value of
`index` wrapped to `uint64`; the `uint64` shift `uint64(index) <<
uint(depth)` is reduced modulo 2^64 (for `depth ≥ 64` Go yields 0, which
the modulus also gives).  The subtraction `maxPathBits - int(depth)` is
embedded as exact `Int` subtraction (Go `int` width is platform defined;
its overflow is outside this embedding). -/
def NewNodeIDForTreeCoords (depth index : Int) (maxPathBits : Int) :
    Option NodeID :=
  let bl : Nat := len64 (index % 2 ^ 64).toNat
  if index < 0 ∨ depth < 0 ∨ (bl : Int) > maxPathBits - depth ∨
      maxPathBits % 8 ≠ 0 then
    none
  else
    let uidx : Nat := (index.toNat * 2 ^ depth.toNat) % 2 ^ 64
    some { Path := natToBytesBE uidx (maxPathBits / 8).toNat,
           PrefixLenBits := (maxPathBits - depth).toNat }

/-- `MaskLeft(depth)` returns a copy of the NodeID with only the left
`depth` bits kept: the first `bytesForBits depth` bytes are copied into a
fresh zero buffer of the same length and the last copied byte is masked by
`leftmask[depth % 8]`; the new `PrefixLenBits` is `min depth
PrefixLenBits`.  (The Go slice `n.Path[:depthBytes]` panics when
`depth > PathLenBits()`; every use below carries that bound.) -/
def NodeID.MaskLeft (n : NodeID) (depth : Nat) : NodeID :=
  let r :=
    if depth > 0 then
      let depthBytes := bytesForBits depth
      let c := n.Path.take depthBytes ++ List.replicate (n.Path.length - depthBytes) 0
      c.set (depthBytes - 1) ((c.getD (depthBytes - 1) 0) &&& leftmask (depth % 8))
    else
      List.replicate n.Path.length 0
  { Path := r, PrefixLenBits := min depth n.PrefixLenBits }

/-- `Neighbor(depth)`: `MaskLeft depth` with the bit at `PrefixLenBits` of
the copy flipped — the sibling node.  The index arithmetic is exactly
node.go's; with `Nat` subtraction `(PathLenBits - height - 1) / 8` agrees
with Go's truncated `int` division on every input reachable below. -/
def NodeID.Neighbor (n : NodeID) (depth : Nat) : NodeID :=
  let node := n.MaskLeft depth
  let height := node.PathLenBits - node.PrefixLenBits
  let bIndex := (node.PathLenBits - height - 1) / 8
  { Path := node.Path.set bIndex ((node.Path.getD bIndex 0) ^^^ (1 <<< (height % 8))),
    PrefixLenBits := node.PrefixLenBits }

/-- `Siblings()`: the `Neighbor` of every node on the path to the root,
ordered leaves first; length `PrefixLenBits`. -/
def NodeID.Siblings (n : NodeID) : List NodeID :=
  (List.range n.PrefixLenBits).map fun height => n.Neighbor (n.PrefixLenBits - height)

/-- Modelled from the spec: the external `Suffix` type (its Go source is not
among the examined files) is "a bit-count plus a small byte buffer
representing the portion of a path below a storage-subtree prefix
boundary"; node.go reads its `bits` and `path` fields directly. -/
structure Suffix where
  bits : Nat
  path : List Nat
deriving Repr, DecidableEq

/-- Modelled from the spec: the `Suffix` constructor used by node.go; it
packages a bit count (a Go `byte`) and a byte buffer. -/
def NewSuffix (bits : Nat) (path : List Nat) : Suffix := ⟨bits, path⟩

/-- Modelled from the spec: the distinguished empty-suffix sentinel
"representing the subtree root itself". -/
def EmptySuffix : Suffix := NewSuffix 0 []

/-- `Suffix(prefixBytes, suffixBits)` from node.go: the significant bits
below the prefix boundary, copied and masked.  `none` models the two
panics (`b > suffixBits` and `b ≤ 0`, with `b` computed in `int`).  The Go
cast `byte(b)` wraps, hence `b % 256` in the result. -/
def NodeID.Suffix (n : NodeID) (prefixBytes suffixBits : Nat) :
    Option Trillian.Suffix :=
  if n.PrefixLenBits = 0 then some EmptySuffix
  else if n.PrefixLenBits ≤ prefixBytes * 8 then none
  else
    let b := n.PrefixLenBits - prefixBytes * 8
    if suffixBits < b then none
    else
      let suffixBytes := bytesForBits b
      let maskIndex := (b - 1) / 8
      let maskLowBits := (b - 1) % 8 + 1
      let sfx := (n.Path.drop prefixBytes).take suffixBytes
      let sfxPath := sfx.set maskIndex
        ((sfx.getD maskIndex 0) &&& (((1 <<< maskLowBits) - 1) <<< (8 - maskLowBits)))
      some (NewSuffix (b % 256) sfxPath)

/-- `Prefix(prefixBytes)`: a copy of the first `prefixBytes` bytes of the
path (empty when `PrefixLenBits == 0`). -/
def NodeID.Prefix (n : NodeID) (prefixBytes : Nat) : List Nat :=
  if n.PrefixLenBits = 0 then [] else n.Path.take prefixBytes

/-- `Split(prefixBytes, suffixBits)`: the prefix and the suffix. -/
def NodeID.Split (n : NodeID) (prefixBytes suffixBits : Nat) :
    Option (List Nat × Trillian.Suffix) :=
  if n.PrefixLenBits = 0 then some ([], EmptySuffix)
  else (n.Suffix prefixBytes suffixBits).map fun s => (n.Prefix prefixBytes, s)

/-- `NewNodeIDFromPrefixSuffix(prefix, suffix, maxPathBits)`: concatenates
prefix and suffix bytes into a `maxPathBits/8`-byte buffer;
`PrefixLenBits = 8*len(prefix) + suffix.bits`.  `none` models the Go
slice-bound panic of `path[len(prefix):]`. -/
def NewNodeIDFromPrefixSuffix (pfx : List Nat) (suffix : Trillian.Suffix)
    (maxPathBits : Nat) : Option NodeID :=
  if maxPathBits / 8 < pfx.length then none
  else
    let path := listCopy (listCopy (List.replicate (maxPathBits / 8) 0) 0 pfx)
      pfx.length suffix.path
    some { Path := path, PrefixLenBits := pfx.length * 8 + suffix.bits }

/-- `Equivalent(other)`: same `PrefixLenBits`, identical full significant
bytes, and — when `PrefixLenBits` is not byte aligned — identical last
partial byte under `leftmask`. -/
def NodeID.Equivalent (n other : NodeID) : Bool :=
  if n.PrefixLenBits ≠ other.PrefixLenBits then false
  else
    let depthBytes := n.PrefixLenBits / 8
    if n.Path.take depthBytes ≠ other.Path.take depthBytes then false
    else if n.PrefixLenBits % 8 = 0 then true
    else
      decide ((n.Path.getD depthBytes 0) &&& leftmask (n.PrefixLenBits % 8) =
        (other.Path.getD depthBytes 0) &&& leftmask (n.PrefixLenBits % 8))

/-- The `hexChars` constant of node.go (`"0123456789abcdef"`), as the list
of its characters. -/
def hexChars : List Char := "0123456789abcdef".toList

/-- One byte rendered as two lowercase hex characters, as node.go writes
the masked last byte (and as `hex.Encode` renders each full byte). -/
def hexByte (b : Nat) : List Char :=
  [hexChars.getD (b >>> 4) '0', hexChars.getD (b &&& 0xf) '0']

/-- `hex.Encode` over a byte slice: each byte as two hex characters. -/
def hexBytes (l : List Nat) : List Char := (l.map hexByte).flatten

/-- Decimal digits of `n`, most significant first, with structural fuel;
correct whenever `n < 10^fuel`. -/
def itoaAux : Nat → Nat → List Char
  | 0, _ => []
  | fuel + 1, n =>
    if n < 10 then [hexChars.getD n '0']
    else itoaAux fuel (n / 10) ++ [hexChars.getD (n % 10) '0']

/-- `strconv.Itoa` for a natural number: decimal digits, most significant
first (`n + 1` units of fuel always suffice since `n < 10^(n+1)`). -/
def itoa (n : Nat) : List Char := itoaAux (n + 1) n

/-- Specification-side decimal parser, used only to prove that `itoa` is
injective. -/
def parseDec (l : List Char) : Nat := l.foldl (fun a c => 10 * a + (c.toNat - 48)) 0

/-- `AsKey()`: `"<PrefixLenBits>:"`, the full significant bytes in hex,
then — if `PrefixLenBits` is not byte aligned — the masked last partial
byte in hex.  (The Go read `n.Path[fullBytes]` panics when the path is too
short; the theorems below carry the invariant excluding that.) -/
def NodeID.AsKey (n : NodeID) : String :=
  let fullBytes := n.PrefixLenBits / 8
  let bitsLeft := n.PrefixLenBits % 8
  let rest :=
    if bitsLeft > 0 then hexByte ((n.Path.getD fullBytes 0) &&& leftmask bitsLeft)
    else []
  ⟨itoa n.PrefixLenBits ++ ':' :: (hexBytes (n.Path.take fullBytes) ++ rest)⟩

/-- Bit `i` of a big-endian bit-packed byte path, counted from the most
significant end (bit 0 is the MSB of byte 0): the specification-side view
of a path used to state bit-level properties. -/
def pathBit (path : List Nat) (i : Nat) : Bool :=
  (path.getD (i / 8) 0).testBit (7 - i % 8)

/-- A path with the single bit at MSB-position `i` flipped: the
specification-side description of what `Neighbor` does to the masked
path. -/
def flipBitMSB (path : List Nat) (i : Nat) : List Nat :=
  path.set (i / 8) ((path.getD (i / 8) 0) ^^^ (1 <<< (7 - i % 8)))

section ListLemmas

lemma listCopy_length (dst : List Nat) (off : Nat) (src : List Nat) :
    (listCopy dst off src).length = dst.length := by
  induction dst generalizing off src with
  | nil => simp [listCopy]
  | cons d ds ih =>
    cases off with
    | zero =>
      cases src with
      | nil => simp [listCopy]
      | cons s ss => simp [listCopy, ih]
    | succ o => simp [listCopy, ih]

lemma listCopy_getD (dst : List Nat) (off : Nat) (src : List Nat) (i : Nat) :
    (listCopy dst off src).getD i 0 =
      if off ≤ i ∧ i - off < src.length ∧ i < dst.length then src.getD (i - off) 0
      else dst.getD i 0 := by
  induction dst generalizing off src i with
  | nil => simp [listCopy]
  | cons d ds ih =>
    cases off with
    | zero =>
      cases src with
      | nil => simp [listCopy]
      | cons s ss =>
        cases i with
        | zero => simp [listCopy]
        | succ j =>
          simp only [listCopy, List.getD_cons_succ, List.length_cons,
            Nat.sub_zero, Nat.succ_sub_succ]
          rw [ih 0 ss j]
          simp only [Nat.sub_zero]
          split_ifs <;> first | rfl | omega
    | succ o =>
      cases i with
      | zero => simp [listCopy]
      | succ j =>
        simp only [listCopy, List.getD_cons_succ, List.length_cons,
          Nat.succ_sub_succ]
        rw [ih o src j]
        split_ifs <;> first | rfl | omega

lemma natToBytesBE_length (v len : Nat) : (natToBytesBE v len).length = len := by
  simp [natToBytesBE]

lemma natToBytesBE_getD (v len i : Nat) (h : i < len) :
    (natToBytesBE v len).getD i 0 = (v >>> (8 * (len - 1 - i))) % 256 := by
  simp [natToBytesBE, List.getD_eq_getElem?_getD, List.getElem?_map,
    List.getElem?_range h]

lemma natToBytesBE_WF (v len : Nat) : BytesWF (natToBytesBE v len) := by
  intro b hb
  simp only [natToBytesBE, List.mem_map] at hb
  obtain ⟨i, _, rfl⟩ := hb
  exact Nat.mod_lt _ (by omega)

lemma list_eq_of_getD {l1 l2 : List Nat} (hlen : l1.length = l2.length)
    (h : ∀ i < l1.length, l1.getD i 0 = l2.getD i 0) : l1 = l2 := by
  apply List.ext_getElem hlen
  intro i h1 h2
  have hi := h i h1
  rwa [List.getD_eq_getElem?_getD, List.getD_eq_getElem?_getD,
    List.getElem?_eq_getElem h1, List.getElem?_eq_getElem h2,
    Option.getD_some, Option.getD_some] at hi

lemma getD_set_self (l : List Nat) (i : Nat) (v : Nat) (h : i < l.length) :
    (l.set i v).getD i 0 = v := by
  rw [List.getD_eq_getElem?_getD, List.getElem?_set_self h, Option.getD_some]

lemma getD_set_ne (l : List Nat) (i j : Nat) (v : Nat) (h : i ≠ j) :
    (l.set i v).getD j 0 = l.getD j 0 := by
  rw [List.getD_eq_getElem?_getD, List.getElem?_set_ne h,
    ← List.getD_eq_getElem?_getD]

lemma getD_take (l : List Nat) (d i : Nat) (h : i < d) :
    (l.take d).getD i 0 = l.getD i 0 := by
  rw [List.getD_eq_getElem?_getD, List.getElem?_take, if_pos h,
    ← List.getD_eq_getElem?_getD]

lemma getD_drop (l : List Nat) (d i : Nat) :
    (l.drop d).getD i 0 = l.getD (d + i) 0 := by
  rw [List.getD_eq_getElem?_getD, List.getElem?_drop,
    ← List.getD_eq_getElem?_getD]

lemma getD_oob (l : List Nat) (i : Nat) (h : l.length ≤ i) :
    l.getD i 0 = 0 := by
  rw [List.getD_eq_getElem?_getD, List.getElem?_eq_none h]
  rfl

lemma BytesWF_getD {l : List Nat} (h : BytesWF l) (i : Nat) : l.getD i 0 < 256 := by
  by_cases hi : i < l.length
  · rw [List.getD_eq_getElem?_getD, List.getElem?_eq_getElem hi, Option.getD_some]
    exact h _ (List.getElem_mem hi)
  · rw [getD_oob l i (by omega)]; omega

lemma BytesWF_take {l : List Nat} (h : BytesWF l) (d : Nat) : BytesWF (l.take d) :=
  fun b hb => h b (List.mem_of_mem_take hb)

lemma take_eq_iff_getD (xs ys : List Nat) (d : Nat)
    (hdx : d ≤ xs.length) (hdy : d ≤ ys.length) :
    xs.take d = ys.take d ↔ ∀ k < d, xs.getD k 0 = ys.getD k 0 := by
  constructor
  · intro h k hk
    have h2 := congrArg (fun l => l.getD k 0) h
    simp only at h2
    rwa [getD_take _ _ _ hk, getD_take _ _ _ hk] at h2
  · intro h
    apply List.ext_getElem (by simp [List.length_take]; omega)
    intro k h1 h2
    have hk : k < d := by simp [List.length_take] at h1; omega
    have hx : k < xs.length := by omega
    have hy : k < ys.length := by omega
    have := h k hk
    rw [List.getD_eq_getElem?_getD, List.getD_eq_getElem?_getD,
      List.getElem?_eq_getElem hx, List.getElem?_eq_getElem hy,
      Option.getD_some, Option.getD_some] at this
    simpa [List.getElem_take] using this

end ListLemmas

section MaskLemmas

lemma maskLeft_length (n : NodeID) (d : Nat) :
    (n.MaskLeft d).Path.length = n.Path.length := by
  unfold NodeID.MaskLeft
  by_cases h : d > 0
  · simp only [if_pos h, List.length_set, List.length_append, List.length_take,
      List.length_replicate]
    omega
  · simp only [if_neg h, List.length_replicate]

lemma maskLeft_prefixLenBits (n : NodeID) (d : Nat) :
    (n.MaskLeft d).PrefixLenBits = min d n.PrefixLenBits := rfl

lemma maskLeft_zero_path (n : NodeID) :
    (n.MaskLeft 0).Path = List.replicate n.Path.length 0 := rfl

lemma maskLeft_getD (n : NodeID) (d : Nat) (hd1 : 1 ≤ d)
    (hdL : d ≤ 8 * n.Path.length) (i : Nat) :
    (n.MaskLeft d).Path.getD i 0 =
      if i < bytesForBits d - 1 then n.Path.getD i 0
      else if i = bytesForBits d - 1 then (n.Path.getD i 0) &&& leftmask (d % 8)
      else 0 := by
  have hdb1 : 1 ≤ bytesForBits d := by unfold bytesForBits; omega
  have hdbL : bytesForBits d ≤ n.Path.length := by unfold bytesForBits; omega
  unfold NodeID.MaskLeft
  rw [if_pos (by omega)]
  simp only
  set db := bytesForBits d with hdb
  set c := n.Path.take db ++ List.replicate (n.Path.length - db) 0 with hc
  have hclen : c.length = n.Path.length := by
    simp [hc, List.length_take, List.length_replicate]; omega
  have hcd : ∀ j, j < db → c.getD j 0 = n.Path.getD j 0 := by
    intro j hj
    rw [hc, List.getD_eq_getElem?_getD, List.getElem?_append,
      if_pos (by simp [List.length_take]; omega), List.getElem?_take, if_pos hj,
      ← List.getD_eq_getElem?_getD]
  have hcz : ∀ j, db ≤ j → c.getD j 0 = 0 := by
    intro j hj
    by_cases hjL : j < n.Path.length
    · rw [hc, List.getD_eq_getElem?_getD, List.getElem?_append,
        if_neg (by simp [List.length_take]; omega), List.getElem?_replicate,
        if_pos (by simp [List.length_take]; omega), Option.getD_some]
    · rw [getD_oob _ _ (by omega)]
  rcases Nat.lt_trichotomy i (db - 1) with hlt | heq | hgt
  · rw [if_pos hlt, getD_set_ne _ _ _ _ (by omega), hcd i (by omega)]
  · rw [if_neg (by omega), if_pos heq, heq,
      getD_set_self _ _ _ (by omega), hcd (db - 1) (by omega)]
  · rw [if_neg (by omega), if_neg (by omega), getD_set_ne _ _ _ _ (by omega)]
    exact hcz i (by omega)

end MaskLemmas

section BitLemmas

lemma land_self_eq (x : Nat) : x &&& x = x := by
  apply Nat.eq_of_testBit_eq
  intro i
  simp [Nat.testBit_land]

lemma eq_iff_testBit_lt (a b k : Nat) (ha : a < 2 ^ k) (hb : b < 2 ^ k) :
    a = b ↔ ∀ t < k, a.testBit t = b.testBit t := by
  constructor
  · rintro rfl t _
    rfl
  · intro h
    apply Nat.eq_of_testBit_eq
    intro i
    by_cases hi : i < k
    · exact h i hi
    · have hle : 2 ^ k ≤ 2 ^ i := Nat.pow_le_pow_right (by omega) (by omega)
      rw [Nat.testBit_lt_two_pow (lt_of_lt_of_le ha hle),
        Nat.testBit_lt_two_pow (lt_of_lt_of_le hb hle)]

lemma byte_eq_iff_bits (x y : Nat) (hx : x < 256) (hy : y < 256) :
    x = y ↔ ∀ t < 8, x.testBit (7 - t) = y.testBit (7 - t) := by
  rw [eq_iff_testBit_lt x y 8 hx hy]
  constructor
  · intro h t ht
    exact h (7 - t) (by omega)
  · intro h t ht
    have h2 := h (7 - t) (by omega)
    rwa [show 7 - (7 - t) = t by omega] at h2

lemma leftmask_lt (j : Nat) : leftmask j < 256 := by
  by_cases h : j < 8
  · interval_cases j <;> decide
  · unfold leftmask
    rw [List.getD_eq_getElem?_getD, List.getElem?_eq_none (by simp; omega)]
    decide

lemma two_pow_ge8 (t : Nat) (ht : 8 ≤ t) : (256 : Nat) ≤ 2 ^ t := by
  calc (256 : Nat) = 2 ^ 8 := by norm_num
    _ ≤ 2 ^ t := Nat.pow_le_pow_right (by omega) ht

lemma testBit_false_of_lt256 (x t : Nat) (hx : x < 256) (ht : 8 ≤ t) :
    x.testBit t = false :=
  Nat.testBit_lt_two_pow (lt_of_lt_of_le hx (two_pow_ge8 t ht))

lemma testBit_leftmask (j t : Nat) (hj : j < 8) :
    (leftmask j).testBit t = decide (t < 8 ∧ (j = 0 ∨ 8 - j ≤ t)) := by
  by_cases ht : t < 8
  · interval_cases j <;> interval_cases t <;> decide
  · rw [testBit_false_of_lt256 _ _ (leftmask_lt j) (by omega)]
    have hc : ¬(t < 8 ∧ (j = 0 ∨ 8 - j ≤ t)) := by omega
    exact (decide_eq_false hc).symm

lemma land_leftmask_lt (x j : Nat) : x &&& leftmask j < 256 := by
  show x &&& leftmask j < 2 ^ 8
  apply Nat.lt_pow_two_of_testBit
  intro i hi
  rw [Nat.testBit_land, testBit_false_of_lt256 _ _ (leftmask_lt j) hi,
    Bool.and_false]

lemma land_leftmask_idem (x j : Nat) :
    (x &&& leftmask j) &&& leftmask j = x &&& leftmask j := by
  rw [Nat.land_assoc, land_self_eq]

lemma land_leftmask_zero (x : Nat) (hx : x < 256) : x &&& leftmask 0 = x := by
  apply Nat.eq_of_testBit_eq
  intro t
  rw [Nat.testBit_land, testBit_leftmask 0 t (by omega)]
  by_cases ht : t < 8
  · simp [ht]
  · rw [testBit_false_of_lt256 x t hx (by omega)]
    simp

set_option maxRecDepth 4000 in
lemma land_leftmask_div_all :
    ∀ j < 8, ∀ x < 256, 1 ≤ j →
      x &&& leftmask j = x / 2 ^ (8 - j) * 2 ^ (8 - j) := by decide

lemma land_leftmask_div (j : Nat) (hj0 : 1 ≤ j) (hj : j < 8) (x : Nat)
    (hx : x < 256) : x &&& leftmask j = x / 2 ^ (8 - j) * 2 ^ (8 - j) :=
  land_leftmask_div_all j hj x hx hj0

lemma mask_eq_iff (x y j : Nat) (hx : x < 256) (hy : y < 256)
    (hj1 : 1 ≤ j) (hj7 : j ≤ 7) :
    (x &&& leftmask j = y &&& leftmask j) ↔
      ∀ t < j, x.testBit (7 - t) = y.testBit (7 - t) := by
  have hpow : 0 < 2 ^ (8 - j) := Nat.two_pow_pos _
  have hmul : (2 : Nat) ^ j * 2 ^ (8 - j) = 256 := by
    rw [← pow_add, show j + (8 - j) = 8 by omega]
    norm_num
  rw [land_leftmask_div j hj1 (by omega) x hx, land_leftmask_div j hj1 (by omega) y hy]
  constructor
  · intro h t ht
    have hdiv : x / 2 ^ (8 - j) = y / 2 ^ (8 - j) := Nat.eq_of_mul_eq_mul_right hpow h
    have e1 : x.testBit (7 - t) = (x / 2 ^ (8 - j)).testBit (j - 1 - t) := by
      rw [← Nat.shiftRight_eq_div_pow, Nat.testBit_shiftRight]
      congr 1
      omega
    have e2 : y.testBit (7 - t) = (y / 2 ^ (8 - j)).testBit (j - 1 - t) := by
      rw [← Nat.shiftRight_eq_div_pow, Nat.testBit_shiftRight]
      congr 1
      omega
    rw [e1, e2, hdiv]
  · intro h
    have hxd : x / 2 ^ (8 - j) < 2 ^ j := by
      rw [Nat.div_lt_iff_lt_mul hpow, hmul]
      exact hx
    have hyd : y / 2 ^ (8 - j) < 2 ^ j := by
      rw [Nat.div_lt_iff_lt_mul hpow, hmul]
      exact hy
    have hq : x / 2 ^ (8 - j) = y / 2 ^ (8 - j) := by
      rw [eq_iff_testBit_lt _ _ j hxd hyd]
      intro u hu
      rw [← Nat.shiftRight_eq_div_pow, ← Nat.shiftRight_eq_div_pow,
        Nat.testBit_shiftRight, Nat.testBit_shiftRight]
      have h2 := h (j - 1 - u) (by omega)
      rwa [show 7 - (j - 1 - u) = 8 - j + u by omega] at h2
    rw [hq]

lemma testBit_oneShift (s t : Nat) : (1 <<< s).testBit t = decide (t = s) := by
  rw [Nat.shiftLeft_eq, one_mul, Nat.testBit_two_pow]
  simp [eq_comm]

lemma getD_replicate (k i : Nat) : (List.replicate k 0).getD i 0 = 0 := by
  rw [List.getD_eq_getElem?_getD, List.getElem?_replicate]
  by_cases h : i < k <;> simp [h]

end BitLemmas

section PathBitLemmas

lemma pathBit_maskLeft (n : NodeID) (d : Nat) (hd1 : 1 ≤ d)
    (hdL : d ≤ 8 * n.Path.length) (i : Nat) (hi : i < d) :
    pathBit (n.MaskLeft d).Path i = pathBit n.Path i := by
  unfold pathBit
  rw [maskLeft_getD n d hd1 hdL]
  by_cases h1 : i / 8 < bytesForBits d - 1
  · rw [if_pos h1]
  · have h2 : i / 8 = bytesForBits d - 1 := by
      unfold bytesForBits at h1 ⊢
      omega
    rw [if_neg (by omega), if_pos h2, Nat.testBit_land,
      testBit_leftmask _ _ (Nat.mod_lt _ (by omega))]
    have hcond : 7 - i % 8 < 8 ∧ (d % 8 = 0 ∨ 8 - d % 8 ≤ 7 - i % 8) := by
      constructor
      · omega
      · by_cases hd8 : d % 8 = 0
        · exact Or.inl hd8
        · refine Or.inr ?_
          unfold bytesForBits at h2
          omega
    rw [decide_eq_true hcond, Bool.and_true]

lemma pathBit_maskLeft_ge (n : NodeID) (d : Nat) (hdL : d ≤ 8 * n.Path.length)
    (i : Nat) (hi : d ≤ i) : pathBit (n.MaskLeft d).Path i = false := by
  unfold pathBit
  cases Nat.eq_zero_or_pos d with
  | inl h0 =>
    subst h0
    rw [maskLeft_zero_path, getD_replicate, Nat.zero_testBit]
  | inr hd1 =>
    rw [maskLeft_getD n d hd1 hdL]
    by_cases h1 : i / 8 < bytesForBits d - 1
    · exfalso
      unfold bytesForBits at h1
      omega
    · by_cases h2 : i / 8 = bytesForBits d - 1
      · rw [if_neg (by omega), if_pos h2, Nat.testBit_land,
          testBit_leftmask _ _ (Nat.mod_lt _ (by omega))]
        have hd8 : d % 8 ≠ 0 := by
          unfold bytesForBits at h2
          omega
        have hcond : ¬(7 - i % 8 < 8 ∧ (d % 8 = 0 ∨ 8 - d % 8 ≤ 7 - i % 8)) := by
          unfold bytesForBits at h2
          omega
        rw [decide_eq_false hcond, Bool.and_false]
      · rw [if_neg (by omega), if_neg h2, Nat.zero_testBit]

end PathBitLemmas

section PrefixBits

lemma byte_eq_of_pathBits (xs ys : List Nat) (k : Nat)
    (hx : BytesWF xs) (hy : BytesWF ys)
    (h : ∀ t < 8, pathBit xs (8 * k + t) = pathBit ys (8 * k + t)) :
    xs.getD k 0 = ys.getD k 0 := by
  rw [byte_eq_iff_bits _ _ (BytesWF_getD hx k) (BytesWF_getD hy k)]
  intro t ht
  have h2 := h t ht
  unfold pathBit at h2
  rwa [show (8 * k + t) / 8 = k by omega, show (8 * k + t) % 8 = t by omega] at h2

lemma prefix_bits_iff (xs ys : List Nat) (p : Nat)
    (hx : BytesWF xs) (hy : BytesWF ys)
    (hlx : p ≤ 8 * xs.length) (hly : p ≤ 8 * ys.length) :
    (xs.take (p / 8) = ys.take (p / 8) ∧
      (p % 8 = 0 ∨
        (xs.getD (p / 8) 0) &&& leftmask (p % 8) =
          (ys.getD (p / 8) 0) &&& leftmask (p % 8)))
    ↔ ∀ i < p, pathBit xs i = pathBit ys i := by
  have hfx : p / 8 ≤ xs.length := by omega
  have hfy : p / 8 ≤ ys.length := by omega
  rw [take_eq_iff_getD xs ys (p / 8) hfx hfy]
  constructor
  · rintro ⟨htake, hmask⟩ i hi
    by_cases hk : i / 8 < p / 8
    · unfold pathBit
      rw [htake (i / 8) hk]
    · have hk2 : i / 8 = p / 8 := by omega
      have hr : i % 8 < p % 8 := by omega
      rcases hmask with h0 | hm
      · omega
      · unfold pathBit
        rw [hk2]
        exact (mask_eq_iff _ _ (p % 8) (BytesWF_getD hx _) (BytesWF_getD hy _)
          (by omega) (by omega)).1 hm (i % 8) hr
  · intro h
    constructor
    · intro k hk
      apply byte_eq_of_pathBits xs ys k hx hy
      intro t ht
      exact h (8 * k + t) (by omega)
    · by_cases h0 : p % 8 = 0
      · exact Or.inl h0
      · refine Or.inr ?_
        apply (mask_eq_iff _ _ (p % 8) (BytesWF_getD hx _) (BytesWF_getD hy _)
          (by omega) (by omega)).2
        intro t ht
        have h2 := h (8 * (p / 8) + t) (by omega)
        unfold pathBit at h2
        rwa [show (8 * (p / 8) + t) / 8 = p / 8 by omega,
          show (8 * (p / 8) + t) % 8 = t by omega] at h2

lemma equivalent_eq_true_iff (n m : NodeID) :
    n.Equivalent m = true ↔
      (n.PrefixLenBits = m.PrefixLenBits ∧
        n.Path.take (n.PrefixLenBits / 8) = m.Path.take (n.PrefixLenBits / 8) ∧
        (n.PrefixLenBits % 8 = 0 ∨
          (n.Path.getD (n.PrefixLenBits / 8) 0) &&& leftmask (n.PrefixLenBits % 8) =
            (m.Path.getD (n.PrefixLenBits / 8) 0) &&& leftmask (n.PrefixLenBits % 8))) := by
  unfold NodeID.Equivalent
  split_ifs <;> simp_all

end PrefixBits

section NeighborLemmas

lemma nodeid_ext {a b : NodeID} (h1 : a.Path = b.Path)
    (h2 : a.PrefixLenBits = b.PrefixLenBits) : a = b := by
  cases a
  cases b
  simp_all

lemma byte_zero_of_bits (x : Nat) (hx : x < 256)
    (h : ∀ t < 8, x.testBit (7 - t) = false) : x = 0 := by
  rw [byte_eq_iff_bits x 0 hx (by omega)]
  intro t ht
  rw [h t ht, Nat.zero_testBit]

lemma flipBitMSB_length (l : List Nat) (b : Nat) :
    (flipBitMSB l b).length = l.length := by
  simp [flipBitMSB]

lemma pathBit_flip (l : List Nat) (b i : Nat) (hb : b / 8 < l.length) :
    pathBit (flipBitMSB l b) i =
      if i / 8 = b / 8 ∧ i % 8 = b % 8 then ! pathBit l i else pathBit l i := by
  unfold pathBit flipBitMSB
  by_cases h : i / 8 = b / 8
  · by_cases h2 : i % 8 = b % 8
    · rw [if_pos ⟨h, h2⟩, h, h2, getD_set_self _ _ _ hb, Nat.testBit_xor,
        testBit_oneShift, decide_eq_true (rfl : 7 - b % 8 = 7 - b % 8),
        Bool.xor_true]
    · rw [if_neg (by tauto), h, getD_set_self _ _ _ hb, Nat.testBit_xor,
        testBit_oneShift, decide_eq_false (by omega : ¬(7 - i % 8 = 7 - b % 8)),
        Bool.xor_false]
  · rw [getD_set_ne _ _ _ _ (fun e => h e.symm), if_neg (by tauto)]

lemma neighbor_eq_flip (n : NodeID) (d : Nat) (hd1 : 1 ≤ d)
    (hdp : d ≤ n.PrefixLenBits) (hdL : d ≤ 8 * n.Path.length) :
    n.Neighbor d =
      ⟨flipBitMSB (n.MaskLeft d).Path (d - 1), (n.MaskLeft d).PrefixLenBits⟩ := by
  unfold NodeID.Neighbor flipBitMSB
  simp only [NodeID.PathLenBits, maskLeft_length, maskLeft_prefixLenBits]
  have hmin : min d n.PrefixLenBits = d := by omega
  rw [hmin]
  have e1 : n.Path.length * 8 - (n.Path.length * 8 - d) - 1 = d - 1 := by omega
  have e2 : (n.Path.length * 8 - d) % 8 = 7 - (d - 1) % 8 := by omega
  rw [e1, e2]

lemma neighbor_length (n : NodeID) (d : Nat) (hd1 : 1 ≤ d)
    (hdp : d ≤ n.PrefixLenBits) (hdL : d ≤ 8 * n.Path.length) :
    (n.Neighbor d).Path.length = n.Path.length := by
  rw [neighbor_eq_flip n d hd1 hdp hdL]
  simp only [flipBitMSB_length, maskLeft_length]

lemma neighbor_maskLeft_path (n : NodeID) (d : Nat) (hd1 : 1 ≤ d)
    (hdp : d ≤ n.PrefixLenBits) (hdL : d ≤ 8 * n.Path.length) :
    ((n.Neighbor d).MaskLeft d).Path = (n.Neighbor d).Path := by
  have hdb1 : 1 ≤ bytesForBits d := by unfold bytesForBits; omega
  have hdbL : bytesForBits d ≤ n.Path.length := by unfold bytesForBits; omega
  have hflen : (n.Neighbor d).Path.length = n.Path.length :=
    neighbor_length n d hd1 hdp hdL
  have hfpath : (n.Neighbor d).Path = flipBitMSB (n.MaskLeft d).Path (d - 1) := by
    rw [neighbor_eq_flip n d hd1 hdp hdL]
  have hrlen : (n.MaskLeft d).Path.length = n.Path.length := maskLeft_length n d
  have hidx : (d - 1) / 8 = bytesForBits d - 1 := by unfold bytesForBits; omega
  have hset : (d - 1) / 8 < (n.MaskLeft d).Path.length := by
    rw [hrlen]; omega
  apply list_eq_of_getD (by rw [maskLeft_length])
  intro i hi
  rw [maskLeft_length, hflen] at hi
  rw [maskLeft_getD (n.Neighbor d) d hd1 (by rw [hflen]; omega)]
  by_cases c1 : i < bytesForBits d - 1
  · rw [if_pos c1]
  · by_cases c2 : i = bytesForBits d - 1
    · rw [if_neg (by omega), if_pos c2]
      -- the flipped byte stays inside the mask
      have hv : (n.Neighbor d).Path.getD i 0 =
          ((n.MaskLeft d).Path.getD i 0) ^^^ (1 <<< (7 - (d - 1) % 8)) := by
        rw [hfpath]
        unfold flipBitMSB
        rw [hidx, ← c2, getD_set_self _ _ _ (by rw [hrlen]; omega)]
      have hmv : (n.MaskLeft d).Path.getD i 0 =
          (n.Path.getD i 0) &&& leftmask (d % 8) := by
        rw [maskLeft_getD n d hd1 hdL, if_neg (by omega), if_pos c2]
      rw [hv, hmv]
      apply Nat.eq_of_testBit_eq
      intro t
      rw [Nat.testBit_land, Nat.testBit_xor, Nat.testBit_land, testBit_oneShift,
        testBit_leftmask (d % 8) t (Nat.mod_lt _ (by omega))]
      by_cases hmask : t < 8 ∧ (d % 8 = 0 ∨ 8 - d % 8 ≤ t)
      · simp only [decide_eq_true hmask, Bool.and_true]
      · simp only [decide_eq_false hmask, Bool.and_false, Bool.false_xor]
        rw [decide_eq_false (by omega : ¬(t = 7 - (d - 1) % 8))]
    · rw [if_neg (by omega), if_neg c2]
      have hne : (d - 1) / 8 ≠ i := by omega
      rw [hfpath]
      unfold flipBitMSB
      rw [getD_set_ne _ _ _ _ hne, maskLeft_getD n d hd1 hdL,
        if_neg (by omega), if_neg c2]

lemma flip_flip (l : List Nat) (b : Nat) (hb : b / 8 < l.length) :
    flipBitMSB (flipBitMSB l b) b = l := by
  unfold flipBitMSB
  apply list_eq_of_getD (by simp [List.length_set])
  intro j hj
  simp only [List.length_set] at hj
  by_cases h : b / 8 = j
  · rw [← h, getD_set_self _ _ _ (by simp [List.length_set]; omega),
      getD_set_self _ _ _ hb, Nat.xor_assoc, Nat.xor_self, Nat.xor_zero]
  · rw [getD_set_ne _ _ _ _ h, getD_set_ne _ _ _ _ h]

lemma neighbor_involution (n : NodeID) (d : Nat) (hd1 : 1 ≤ d)
    (hdp : d ≤ n.PrefixLenBits) (hdL : d ≤ 8 * n.Path.length) :
    (n.Neighbor d).Neighbor d = n.MaskLeft d := by
  have h1 := neighbor_eq_flip n d hd1 hdp hdL
  have hm : (n.Neighbor d).PrefixLenBits = d := by
    rw [h1]
    simp only [maskLeft_prefixLenBits]
    omega
  have hmL : d ≤ 8 * (n.Neighbor d).Path.length := by
    rw [neighbor_length n d hd1 hdp hdL]
    omega
  have h2 := neighbor_eq_flip (n.Neighbor d) d hd1 (le_of_eq hm.symm) hmL
  rw [h2]
  apply nodeid_ext
  · simp only
    rw [neighbor_maskLeft_path n d hd1 hdp hdL, h1]
    simp only
    rw [flip_flip _ _ (by rw [maskLeft_length]; omega)]
  · simp only [maskLeft_prefixLenBits]
    rw [hm]
    omega

end NeighborLemmas

section SizeLemmas

lemma size_eq_size_div_two_add_one (x : Nat) (hx : x ≠ 0) :
    Nat.size x = Nat.size (x / 2) + 1 := by
  apply le_antisymm
  · rw [Nat.size_le]
    have h1 := Nat.lt_size_self (x / 2)
    have h2 : 2 ^ (Nat.size (x / 2) + 1) = 2 * 2 ^ Nat.size (x / 2) := by
      rw [pow_succ]
      ring
    omega
  · rcases Nat.eq_zero_or_pos (x / 2) with h0 | hpos
    · rw [h0, Nat.size_zero]
      rw [Nat.succ_le_iff, Nat.lt_size]
      simpa using Nat.one_le_iff_ne_zero.2 hx
    · rw [Nat.succ_le_iff, Nat.lt_size]
      have hs : 1 ≤ Nat.size (x / 2) := by
        rw [Nat.succ_le_iff, Nat.lt_size]
        simpa using hpos
      have h1 : 2 ^ (Nat.size (x / 2) - 1) ≤ x / 2 := by
        rw [← Nat.lt_size]
        omega
      have h2 : 2 ^ Nat.size (x / 2) = 2 * 2 ^ (Nat.size (x / 2) - 1) := by
        rw [← pow_succ']
        congr 1
        omega
      omega

lemma bitLenAux_eq_size (fuel x : Nat) (h : x < 2 ^ fuel) :
    bitLenAux fuel x = Nat.size x := by
  induction fuel generalizing x with
  | zero =>
    have : x = 0 := by simpa using h
    subst this
    simp [bitLenAux, Nat.size_zero]
  | succ fuel ih =>
    by_cases h0 : x = 0
    · subst h0
      simp [bitLenAux, Nat.size_zero]
    · have hdiv : x / 2 < 2 ^ fuel := by
        have : 2 ^ (fuel + 1) = 2 ^ fuel * 2 := by rw [pow_succ]
        omega
      rw [show bitLenAux (fuel + 1) x = bitLenAux fuel (x / 2) + 1 by
          simp [bitLenAux, h0],
        ih (x / 2) hdiv, ← size_eq_size_div_two_add_one x h0]

lemma len64_eq_size (x : Nat) (h : x < 2 ^ 64) : len64 x = Nat.size x :=
  bitLenAux_eq_size 64 x h

end SizeLemmas

/-- Claim C7: the concrete tree-coordinate constructions produce exactly the
stated identifiers: depth 0 index 19 in 16 bits gives path `[0x00, 0x13]`
with 16 significant bits; depth 2 index 16383 gives `[0xFF, 0xFC]` with 14;
depth 0 index 95 in 8 bits gives `[0x5F]` with 8, and its depth-2 ancestor
(depth 2, index 23) gives `[0x5C]` with 6. -/
theorem c7_tree_coords_concrete :
    NewNodeIDForTreeCoords 0 19 16 = some ⟨[0x00, 0x13], 16⟩
    ∧ NewNodeIDForTreeCoords 2 16383 16 = some ⟨[0xFF, 0xFC], 14⟩
    ∧ NewNodeIDForTreeCoords 0 95 8 = some ⟨[0x5F], 8⟩
    ∧ NewNodeIDForTreeCoords 2 23 8 = some ⟨[0x5C], 6⟩ := by decide

/-- Claim C8: `Equivalent` returns true iff both identifiers have the same
`PrefixLenBits` and identical bits in `[0, PrefixLenBits)`; consequently it
is reflexive, symmetric, and insensitive to non-significant trailing
bits. -/
theorem c8_equivalent_characterisation (n m : NodeID)
    (hn : BytesWF n.Path) (hm : BytesWF m.Path)
    (hin : n.PrefixLenBits ≤ 8 * n.Path.length)
    (him : m.PrefixLenBits ≤ 8 * m.Path.length) :
    (n.Equivalent m = true ↔
      (n.PrefixLenBits = m.PrefixLenBits ∧
        ∀ i < n.PrefixLenBits, pathBit n.Path i = pathBit m.Path i))
    ∧ n.Equivalent n = true
    ∧ n.Equivalent m = m.Equivalent n := by
  refine ⟨?_, ?_, ?_⟩
  · rw [equivalent_eq_true_iff]
    constructor
    · rintro ⟨hp, hrest⟩
      exact ⟨hp,
        (prefix_bits_iff n.Path m.Path n.PrefixLenBits hn hm hin (by omega)).1 hrest⟩
    · rintro ⟨hp, hbits⟩
      exact ⟨hp,
        (prefix_bits_iff n.Path m.Path n.PrefixLenBits hn hm hin (by omega)).2 hbits⟩
  · rw [equivalent_eq_true_iff]
    exact ⟨rfl, rfl, Or.inr rfl⟩
  · by_cases hp : n.PrefixLenBits = m.PrefixLenBits
    · rw [Bool.eq_iff_iff, equivalent_eq_true_iff, equivalent_eq_true_iff, ← hp]
      constructor
      · rintro ⟨h1, h2, h3⟩
        exact ⟨h1.symm, h2.symm, h3.elim Or.inl fun h => Or.inr h.symm⟩
      · rintro ⟨h1, h2, h3⟩
        exact ⟨h1.symm, h2.symm, h3.elim Or.inl fun h => Or.inr h.symm⟩
    · have e1 : n.Equivalent m = false := by
        rw [Bool.eq_false_iff]
        intro hc
        exact hp ((equivalent_eq_true_iff n m).1 hc).1
      have e2 : m.Equivalent n = false := by
        rw [Bool.eq_false_iff]
        intro hc
        exact hp (((equivalent_eq_true_iff m n).1 hc).1).symm
      rw [e1, e2]

/-- Witness for C8 at concrete identifiers differing only in padding. -/
theorem c8_witness :
    (NodeID.Equivalent ⟨[0xAB, 0xC0], 9⟩ ⟨[0xAB, 0xFF], 9⟩ = true ↔
      ((9 : Nat) = 9 ∧
        ∀ i < (9 : Nat), pathBit [0xAB, 0xC0] i = pathBit [0xAB, 0xFF] i))
    ∧ NodeID.Equivalent ⟨[0xAB, 0xC0], 9⟩ ⟨[0xAB, 0xC0], 9⟩ = true
    ∧ NodeID.Equivalent ⟨[0xAB, 0xC0], 9⟩ ⟨[0xAB, 0xFF], 9⟩ =
        NodeID.Equivalent ⟨[0xAB, 0xFF], 9⟩ ⟨[0xAB, 0xC0], 9⟩ :=
  c8_equivalent_characterisation ⟨[0xAB, 0xC0], 9⟩ ⟨[0xAB, 0xFF], 9⟩
    (by decide) (by decide) (by decide) (by decide)

/-- Claim C4: `Neighbor` at the same depth is its own inverse
(sibling-of-sibling is the masked original), and `Neighbor d` is exactly
`MaskLeft d` with the single bit at MSB-position `d-1` flipped. -/
theorem c4_neighbor_involution (n : NodeID) (d : Nat) (hd1 : 1 ≤ d)
    (hdp : d ≤ n.PrefixLenBits) (hdL : d ≤ n.PathLenBits) :
    (n.Neighbor d).Neighbor d = n.MaskLeft d
    ∧ n.Neighbor d =
        ⟨flipBitMSB (n.MaskLeft d).Path (d - 1), (n.MaskLeft d).PrefixLenBits⟩ := by
  have hdL8 : d ≤ 8 * n.Path.length := by
    unfold NodeID.PathLenBits at hdL
    omega
  exact ⟨neighbor_involution n d hd1 hdp hdL8, neighbor_eq_flip n d hd1 hdp hdL8⟩

/-- Witness for C4 at a concrete identifier and depth. -/
theorem c4_witness :
    (NodeID.Neighbor (NodeID.Neighbor ⟨[0x0F, 0xF0], 12⟩ 5) 5 =
      NodeID.MaskLeft ⟨[0x0F, 0xF0], 12⟩ 5)
    ∧ NodeID.Neighbor ⟨[0x0F, 0xF0], 12⟩ 5 =
        ⟨flipBitMSB (NodeID.MaskLeft ⟨[0x0F, 0xF0], 12⟩ 5).Path 4,
          (NodeID.MaskLeft ⟨[0x0F, 0xF0], 12⟩ 5).PrefixLenBits⟩ :=
  c4_neighbor_involution ⟨[0x0F, 0xF0], 12⟩ 5 (by decide) (by decide) (by decide)

/-- Claim C5: `Siblings()` has length `PrefixLenBits`, its element at index
`h` is `Neighbor (PrefixLenBits - h)` (leaf-to-root order), and its first
element agrees with the identifier on every significant bit except the
final one, which is flipped. -/
theorem c5_siblings (n : NodeID) (hin : n.PrefixLenBits ≤ 8 * n.Path.length) :
    n.Siblings.length = n.PrefixLenBits
    ∧ (∀ h < n.PrefixLenBits,
        n.Siblings.getD h ⟨[], 0⟩ = n.Neighbor (n.PrefixLenBits - h))
    ∧ (1 ≤ n.PrefixLenBits →
        ((n.Siblings.getD 0 ⟨[], 0⟩).PrefixLenBits = n.PrefixLenBits
          ∧ (∀ i < n.PrefixLenBits - 1,
              pathBit (n.Siblings.getD 0 ⟨[], 0⟩).Path i = pathBit n.Path i)
          ∧ pathBit (n.Siblings.getD 0 ⟨[], 0⟩).Path (n.PrefixLenBits - 1) =
              ! pathBit n.Path (n.PrefixLenBits - 1))) := by
  refine ⟨by simp [NodeID.Siblings], ?_, ?_⟩
  · intro h hh
    unfold NodeID.Siblings
    rw [List.getD_eq_getElem?_getD, List.getElem?_map, List.getElem?_range hh]
    rfl
  · intro h1
    have hs0 : n.Siblings.getD 0 ⟨[], 0⟩ = n.Neighbor n.PrefixLenBits := by
      unfold NodeID.Siblings
      rw [List.getD_eq_getElem?_getD, List.getElem?_map, List.getElem?_range h1]
      simp
    rw [hs0]
    have hflip := neighbor_eq_flip n n.PrefixLenBits h1 (le_refl _) hin
    refine ⟨?_, ?_, ?_⟩
    · rw [hflip]
      simp only [maskLeft_prefixLenBits]
      omega
    · intro i hi
      rw [hflip]
      simp only
      rw [pathBit_flip _ _ _ (by rw [maskLeft_length]; omega), if_neg (by omega),
        pathBit_maskLeft n _ h1 hin i (by omega)]
    · rw [hflip]
      simp only
      rw [pathBit_flip _ _ _ (by rw [maskLeft_length]; omega), if_pos ⟨rfl, rfl⟩,
        pathBit_maskLeft n _ h1 hin _ (by omega)]

/-- Witness for C5 at a concrete identifier. -/
theorem c5_witness :
    (NodeID.Siblings ⟨[0x5C], 6⟩).length = 6
    ∧ (∀ h < (6 : Nat),
        (NodeID.Siblings ⟨[0x5C], 6⟩).getD h ⟨[], 0⟩ =
          NodeID.Neighbor ⟨[0x5C], 6⟩ (6 - h))
    ∧ (1 ≤ (6 : Nat) →
        (((NodeID.Siblings ⟨[0x5C], 6⟩).getD 0 ⟨[], 0⟩).PrefixLenBits = 6
          ∧ (∀ i < (6 : Nat) - 1,
              pathBit ((NodeID.Siblings ⟨[0x5C], 6⟩).getD 0 ⟨[], 0⟩).Path i =
                pathBit [0x5C] i)
          ∧ pathBit ((NodeID.Siblings ⟨[0x5C], 6⟩).getD 0 ⟨[], 0⟩).Path ((6 : Nat) - 1) =
              ! pathBit [0x5C] ((6 : Nat) - 1))) :=
  c5_siblings ⟨[0x5C], 6⟩ (by decide)

/-- Claim C10 counterexample: two identifiers with `PrefixLenBits = 1` that
agree on their single significant bit but have different path lengths get
different (non-byte-identical) paths from `MaskLeft 1`, so the claim as
stated (with no equal-length requirement) is false. -/
theorem c10_counterexample :
    (∀ i < (1 : Nat), pathBit [0x80] i = pathBit [0x80, 0x00] i)
    ∧ (NodeID.MaskLeft ⟨[0x80], 1⟩ 1).Path ≠
        (NodeID.MaskLeft ⟨[0x80, 0x00], 1⟩ 1).Path := by decide

/-- Claim C10 (amended: the two identifiers must also have equal `Path`
length): `MaskLeft d` zeroes every bit at position at least `d`, including
whole bytes past the copied prefix; consequently two identifiers of equal
path length and equal `PrefixLenBits` agreeing on all significant bits have
byte-identical paths after `MaskLeft PrefixLenBits`. -/
theorem c10_maskleft_canonical (n m : NodeID) (d : Nat)
    (hd : d ≤ n.PathLenBits)
    (hWFn : BytesWF n.Path) (hWFm : BytesWF m.Path)
    (hinn : n.PrefixLenBits ≤ 8 * n.Path.length)
    (hinm : m.PrefixLenBits ≤ 8 * m.Path.length)
    (hlen : n.Path.length = m.Path.length)
    (hp : n.PrefixLenBits = m.PrefixLenBits) :
    (∀ i, d ≤ i → pathBit (n.MaskLeft d).Path i = false)
    ∧ ((∀ i < n.PrefixLenBits, pathBit n.Path i = pathBit m.Path i) →
        (n.MaskLeft n.PrefixLenBits).Path = (m.MaskLeft m.PrefixLenBits).Path) := by
  constructor
  · intro i hi
    apply pathBit_maskLeft_ge n d ?_ i hi
    unfold NodeID.PathLenBits at hd
    omega
  · intro hbits
    have h8m : n.PrefixLenBits ≤ 8 * m.Path.length := by
      rw [hp]
      exact hinm
    rcases Nat.eq_zero_or_pos n.PrefixLenBits with h0 | h1
    · rw [← hp, h0, maskLeft_zero_path, maskLeft_zero_path, hlen]
    · rw [← hp]
      apply list_eq_of_getD (by rw [maskLeft_length, maskLeft_length, hlen])
      intro i hi
      rw [maskLeft_length] at hi
      rw [maskLeft_getD n _ h1 hinn, maskLeft_getD m _ h1 h8m]
      by_cases c1 : i < bytesForBits n.PrefixLenBits - 1
      · rw [if_pos c1, if_pos c1]
        apply byte_eq_of_pathBits _ _ i hWFn hWFm
        intro t ht
        apply hbits
        unfold bytesForBits at c1
        omega
      · by_cases c2 : i = bytesForBits n.PrefixLenBits - 1
        · rw [if_neg (by omega), if_pos c2, if_neg (by omega), if_pos c2]
          by_cases h8 : n.PrefixLenBits % 8 = 0
          · rw [h8, land_leftmask_zero _ (BytesWF_getD hWFn i),
              land_leftmask_zero _ (BytesWF_getD hWFm i)]
            apply byte_eq_of_pathBits _ _ i hWFn hWFm
            intro t ht
            apply hbits
            unfold bytesForBits at c2
            omega
          · apply (mask_eq_iff _ _ _ (BytesWF_getD hWFn i) (BytesWF_getD hWFm i)
              (by omega) (by omega)).2
            intro t ht
            have h2 := hbits (8 * i + t) (by unfold bytesForBits at c2; omega)
            unfold pathBit at h2
            rwa [show (8 * i + t) / 8 = i by omega,
              show (8 * i + t) % 8 = t by omega] at h2
        · rw [if_neg (by omega), if_neg c2, if_neg (by omega), if_neg c2]

/-- Witness for C10 at a concrete identifier. -/
theorem c10_witness :
    (∀ i, (4 : Nat) ≤ i → pathBit (NodeID.MaskLeft ⟨[0xAB], 8⟩ 4).Path i = false)
    ∧ ((∀ i < (8 : Nat), pathBit [0xAB] i = pathBit [0xAB] i) →
        (NodeID.MaskLeft ⟨[0xAB], 8⟩ 8).Path = (NodeID.MaskLeft ⟨[0xAB], 8⟩ 8).Path) :=
  c10_maskleft_canonical ⟨[0xAB], 8⟩ ⟨[0xAB], 8⟩ 4 (by decide) (by decide)
    (by decide) (by decide) (by decide) (by decide) (by decide)

/-- Claim C3 counterexample: `MaskLeft PrefixLenBits` is not the identity on
an identifier whose padding bits are set — it zeroes them — so the no-op
part of the claim is false as stated. -/
theorem c3_counterexample :
    NodeID.MaskLeft ⟨[0xFF], 4⟩ 4 = ⟨[0xF0], 4⟩
    ∧ (⟨[0xF0], 4⟩ : NodeID) ≠ (⟨[0xFF], 4⟩ : NodeID) := by decide

/-- Claim C3 (amended: `MaskLeft PrefixLenBits` preserves `PrefixLenBits`
and every significant bit — the result is `Equivalent` to the original —
and is the identity exactly on identifiers whose non-significant bits are
zero): `MaskLeft d` is idempotent for every `d ≤ PathLenBits`. -/
theorem c3_maskleft_idempotent (n : NodeID) (d : Nat)
    (hd : d ≤ n.PathLenBits) (hWF : BytesWF n.Path)
    (hin : n.PrefixLenBits ≤ 8 * n.Path.length) :
    ((n.MaskLeft d).MaskLeft d = n.MaskLeft d)
    ∧ (n.MaskLeft n.PrefixLenBits).PrefixLenBits = n.PrefixLenBits
    ∧ (n.MaskLeft n.PrefixLenBits).Equivalent n = true
    ∧ ((∀ i, n.PrefixLenBits ≤ i → pathBit n.Path i = false) →
        n.MaskLeft n.PrefixLenBits = n) := by
  have hdL8 : d ≤ 8 * n.Path.length := by
    unfold NodeID.PathLenBits at hd
    omega
  refine ⟨?_, ?_, ?_, ?_⟩
  · rcases Nat.eq_zero_or_pos d with rfl | hd1
    · apply nodeid_ext
      · rw [maskLeft_zero_path, maskLeft_zero_path, List.length_replicate]
      · simp only [maskLeft_prefixLenBits]
        omega
    · apply nodeid_ext
      · apply list_eq_of_getD (by rw [maskLeft_length])
        intro i hi
        rw [maskLeft_length] at hi
        have hdL8m : d ≤ 8 * (n.MaskLeft d).Path.length := by
          rw [maskLeft_length]
          omega
        rw [maskLeft_getD (n.MaskLeft d) d hd1 hdL8m, maskLeft_getD n d hd1 hdL8]
        split_ifs <;> first | rfl | apply land_leftmask_idem
      · simp only [maskLeft_prefixLenBits]
        omega
  · rw [maskLeft_prefixLenBits]
    omega
  · rw [equivalent_eq_true_iff]
    have hplb : (n.MaskLeft n.PrefixLenBits).PrefixLenBits = n.PrefixLenBits := by
      rw [maskLeft_prefixLenBits]
      omega
    refine ⟨hplb, ?_, ?_⟩
    · rw [hplb]
      rcases Nat.eq_zero_or_pos n.PrefixLenBits with h0 | h1
      · rw [h0]
        simp
      · apply (take_eq_iff_getD _ _ _ (by rw [maskLeft_length]; omega) (by omega)).2
        intro k hk
        rw [maskLeft_getD n n.PrefixLenBits h1 hin]
        by_cases c1 : k < bytesForBits n.PrefixLenBits - 1
        · rw [if_pos c1]
        · have c2 : k = bytesForBits n.PrefixLenBits - 1 ∧ n.PrefixLenBits % 8 = 0 := by
            unfold bytesForBits at c1 ⊢
            omega
          rw [if_neg (by omega), if_pos c2.1, c2.2,
            land_leftmask_zero _ (BytesWF_getD hWF k)]
    · rw [hplb]
      by_cases h8 : n.PrefixLenBits % 8 = 0
      · exact Or.inl h8
      · refine Or.inr ?_
        have h1 : 1 ≤ n.PrefixLenBits := by omega
        have e1 : ¬(n.PrefixLenBits / 8 < bytesForBits n.PrefixLenBits - 1) := by
          unfold bytesForBits
          omega
        have e2 : n.PrefixLenBits / 8 = bytesForBits n.PrefixLenBits - 1 := by
          unfold bytesForBits
          omega
        rw [maskLeft_getD n n.PrefixLenBits h1 hin, if_neg e1, if_pos e2,
          land_leftmask_idem]
  · intro hcanon
    apply nodeid_ext
    · apply list_eq_of_getD (maskLeft_length n _)
      intro i hi
      rw [maskLeft_length] at hi
      rcases Nat.eq_zero_or_pos n.PrefixLenBits with h0 | h1
      · rw [h0, maskLeft_zero_path, getD_replicate]
        symm
        apply byte_zero_of_bits _ (BytesWF_getD hWF i)
        intro t ht
        have h2 := hcanon (8 * i + t) (by omega)
        unfold pathBit at h2
        rwa [show (8 * i + t) / 8 = i by omega,
          show (8 * i + t) % 8 = t by omega] at h2
      · rw [maskLeft_getD n _ h1 hin]
        by_cases c1 : i < bytesForBits n.PrefixLenBits - 1
        · rw [if_pos c1]
        · by_cases c2 : i = bytesForBits n.PrefixLenBits - 1
          · rw [if_neg (by omega), if_pos c2]
            by_cases h8 : n.PrefixLenBits % 8 = 0
            · rw [h8, land_leftmask_zero _ (BytesWF_getD hWF i)]
            · apply Nat.eq_of_testBit_eq
              intro t
              rw [Nat.testBit_land, testBit_leftmask _ _ (Nat.mod_lt _ (by omega))]
              by_cases hmask : t < 8 ∧
                  (n.PrefixLenBits % 8 = 0 ∨ 8 - n.PrefixLenBits % 8 ≤ t)
              · simp only [decide_eq_true hmask, Bool.and_true]
              · simp only [decide_eq_false hmask, Bool.and_false]
                by_cases ht8 : t < 8
                · have h2 := hcanon (8 * i + (7 - t))
                    (by unfold bytesForBits at c2; omega)
                  unfold pathBit at h2
                  rw [show (8 * i + (7 - t)) / 8 = i by omega,
                    show (8 * i + (7 - t)) % 8 = 7 - t by omega,
                    show 7 - (7 - t) = t by omega] at h2
                  exact h2.symm
                · exact
                    (testBit_false_of_lt256 _ t (BytesWF_getD hWF i) (by omega)).symm
          · rw [if_neg (by omega), if_neg c2]
            symm
            apply byte_zero_of_bits _ (BytesWF_getD hWF i)
            intro t ht
            have h2 := hcanon (8 * i + t)
              (by unfold bytesForBits at c1 c2; omega)
            unfold pathBit at h2
            rwa [show (8 * i + t) / 8 = i by omega,
              show (8 * i + t) % 8 = t by omega] at h2
    · rw [maskLeft_prefixLenBits]
      omega

/-- Witness for C3 at a concrete identifier with zero padding. -/
theorem c3_witness :
    ((NodeID.MaskLeft (NodeID.MaskLeft ⟨[0xA0], 4⟩ 3) 3 =
        NodeID.MaskLeft ⟨[0xA0], 4⟩ 3)
    ∧ (NodeID.MaskLeft ⟨[0xA0], 4⟩ 4).PrefixLenBits = 4
    ∧ (NodeID.MaskLeft ⟨[0xA0], 4⟩ 4).Equivalent ⟨[0xA0], 4⟩ = true
    ∧ ((∀ i, (4 : Nat) ≤ i → pathBit [0xA0] i = false) →
        NodeID.MaskLeft ⟨[0xA0], 4⟩ 4 = ⟨[0xA0], 4⟩)) :=
  c3_maskleft_idempotent ⟨[0xA0], 4⟩ 3 (by decide) (by decide) (by decide)

section SuffixMask

lemma NewSuffix_path (bits path) : (NewSuffix bits path).path = path := rfl

lemma NewSuffix_bits (bits path) : (NewSuffix bits path).bits = bits := rfl

lemma sfx_mask_eq_leftmask (b : Nat) (hb : 1 ≤ b) :
    ((1 <<< ((b - 1) % 8 + 1)) - 1) <<< (8 - ((b - 1) % 8 + 1)) = leftmask (b % 8) := by
  have h1 : b % 8 = ((b - 1) % 8 + 1) % 8 := by omega
  rw [h1]
  have h2 : (b - 1) % 8 < 8 := Nat.mod_lt _ (by omega)
  revert h2
  generalize (b - 1) % 8 = t
  intro h2
  interval_cases t <;> decide

end SuffixMask

section AsKeyLemmas

lemma digit_ne_colon (d : Nat) (hd : d < 10) : hexChars.getD d '0' ≠ ':' := by
  interval_cases d <;> decide

lemma itoaAux_ne_colon (fuel : Nat) : ∀ n, ∀ c ∈ itoaAux fuel n, c ≠ ':' := by
  induction fuel with
  | zero =>
    intro n c hc
    simp [itoaAux] at hc
  | succ fuel ih =>
    intro n c hc
    unfold itoaAux at hc
    split_ifs at hc with h
    · simp only [List.mem_singleton] at hc
      subst hc
      exact digit_ne_colon n h
    · rw [List.mem_append] at hc
      rcases hc with hc | hc
      · exact ih (n / 10) c hc
      · simp only [List.mem_singleton] at hc
        subst hc
        exact digit_ne_colon _ (Nat.mod_lt _ (by omega))

lemma itoa_ne_colon (n : Nat) : ∀ c ∈ itoa n, c ≠ ':' :=
  itoaAux_ne_colon (n + 1) n

lemma parse_snoc (xs : List Char) (c : Char) :
    parseDec (xs ++ [c]) = 10 * parseDec xs + (c.toNat - 48) := by
  unfold parseDec
  rw [List.foldl_append]
  rfl

lemma digit_toNat (d : Nat) (hd : d < 10) : (hexChars.getD d '0').toNat - 48 = d := by
  interval_cases d <;> decide

lemma parse_itoaAux (fuel : Nat) : ∀ n, n < 10 ^ fuel →
    parseDec (itoaAux fuel n) = n := by
  induction fuel with
  | zero =>
    intro n h
    simp only [pow_zero, Nat.lt_one_iff] at h
    subst h
    rfl
  | succ fuel ih =>
    intro n h
    unfold itoaAux
    split_ifs with hlt
    · have hd := digit_toNat n hlt
      unfold parseDec
      simp only [List.foldl_cons, List.foldl_nil]
      omega
    · have hstep : (10 : Nat) ^ (fuel + 1) = 10 ^ fuel * 10 := pow_succ 10 fuel
      rw [parse_snoc, ih (n / 10) (by omega), digit_toNat _ (Nat.mod_lt _ (by omega))]
      omega

lemma itoa_inj (a c : Nat) (h : itoa a = itoa c) : a = c := by
  have hb : ∀ k : Nat, k < 10 ^ (k + 1) := by
    intro k
    have h2 : k < 10 ^ k := Nat.lt_pow_self (by norm_num) k
    have h3 : (10 : Nat) ^ k ≤ 10 ^ (k + 1) := Nat.pow_le_pow_right (by norm_num) (by omega)
    omega
  have h1 : parseDec (itoa a) = a := parse_itoaAux (a + 1) a (hb a)
  have h2 : parseDec (itoa c) = c := parse_itoaAux (c + 1) c (hb c)
  rw [← h1, ← h2, h]

lemma colon_split (as1 : List Char) : ∀ as2 : List Char, ∀ bs1 bs2 : List Char,
    (∀ c ∈ as1, c ≠ ':') → (∀ c ∈ as2, c ≠ ':') →
    as1 ++ ':' :: bs1 = as2 ++ ':' :: bs2 → as1 = as2 ∧ bs1 = bs2 := by
  induction as1 with
  | nil =>
    intro as2 bs1 bs2 h1 h2 heq
    cases as2 with
    | nil => simpa using heq
    | cons a t =>
      simp only [List.nil_append, List.cons_append, List.cons.injEq] at heq
      exact absurd heq.1.symm (h2 a (by simp))
  | cons a t ih =>
    intro as2 bs1 bs2 h1 h2 heq
    cases as2 with
    | nil =>
      simp only [List.nil_append, List.cons_append, List.cons.injEq] at heq
      exact absurd heq.1 (h1 a (by simp))
    | cons a2 t2 =>
      simp only [List.cons_append, List.cons.injEq] at heq
      obtain ⟨ha, ht⟩ := heq
      obtain ⟨e1, e2⟩ := ih t2 bs1 bs2 (fun c hc => h1 c (by simp [hc]))
        (fun c hc => h2 c (by simp [hc])) ht
      exact ⟨by rw [ha, e1], e2⟩

lemma hexBytes_length (l : List Nat) : (hexBytes l).length = 2 * l.length := by
  induction l with
  | nil => rfl
  | cons x xs ih =>
    simp only [hexBytes, List.map_cons, List.flatten_cons, List.length_append] at ih ⊢
    simp only [hexByte, List.length_cons, List.length_nil, List.length_singleton]
    omega

lemma nibble_inj : ∀ a < 16, ∀ b < 16,
    hexChars.getD a '0' = hexChars.getD b '0' → a = b := by decide

set_option maxRecDepth 8000 in
lemma byte_decomp : ∀ x < 256,
    x = (x >>> 4) * 16 + (x &&& 15) ∧ x >>> 4 < 16 ∧ (x &&& 15) < 16 := by decide

lemma hexByte_inj (x y : Nat) (hx : x < 256) (hy : y < 256)
    (h : hexByte x = hexByte y) : x = y := by
  unfold hexByte at h
  simp only [List.cons.injEq, and_true] at h
  obtain ⟨h1, h2⟩ := h
  obtain ⟨ex, ex1, ex2⟩ := byte_decomp x hx
  obtain ⟨ey, ey1, ey2⟩ := byte_decomp y hy
  have e1 := nibble_inj _ ex1 _ ey1 h1
  have e2 := nibble_inj _ ex2 _ ey2 h2
  omega

lemma hexBytes_inj (l1 : List Nat) : ∀ l2 : List Nat, BytesWF l1 → BytesWF l2 →
    l1.length = l2.length → hexBytes l1 = hexBytes l2 → l1 = l2 := by
  induction l1 with
  | nil =>
    intro l2 _ _ hlen _
    cases l2 with
    | nil => rfl
    | cons y ys => simp at hlen
  | cons x xs ih =>
    intro l2 h1 h2 hlen h
    cases l2 with
    | nil => simp at hlen
    | cons y ys =>
      simp only [hexBytes, List.map_cons, List.flatten_cons] at h
      obtain ⟨hh, ht⟩ := List.append_inj h (by simp [hexByte])
      have hxy := hexByte_inj x y (h1 x (by simp)) (h2 y (by simp)) hh
      have htail := ih ys (fun b hb => h1 b (by simp [hb]))
        (fun b hb => h2 b (by simp [hb])) (by simpa using hlen) ht
      rw [hxy, htail]

lemma askey_eq_iff (n m : NodeID)
    (hn : BytesWF n.Path) (hm : BytesWF m.Path)
    (hin : n.PrefixLenBits ≤ 8 * n.Path.length)
    (him : m.PrefixLenBits ≤ 8 * m.Path.length) :
    (n.AsKey = m.AsKey) ↔
      (n.PrefixLenBits = m.PrefixLenBits ∧
        n.Path.take (n.PrefixLenBits / 8) = m.Path.take (n.PrefixLenBits / 8) ∧
        (n.PrefixLenBits % 8 = 0 ∨
          (n.Path.getD (n.PrefixLenBits / 8) 0) &&& leftmask (n.PrefixLenBits % 8) =
            (m.Path.getD (n.PrefixLenBits / 8) 0) &&& leftmask (n.PrefixLenBits % 8))) := by
  have hfn : n.PrefixLenBits / 8 ≤ n.Path.length := by omega
  have hfm : m.PrefixLenBits / 8 ≤ m.Path.length := by omega
  constructor
  · intro h
    unfold NodeID.AsKey at h
    have hdata := congrArg String.data h
    simp only at hdata
    obtain ⟨hitoa, hrest⟩ := colon_split _ _ _ _ (itoa_ne_colon n.PrefixLenBits)
      (itoa_ne_colon m.PrefixLenBits) hdata
    have hp := itoa_inj _ _ hitoa
    refine ⟨hp, ?_, ?_⟩
    all_goals {
      rw [← hp] at hrest
      have hlen2 : (hexBytes (n.Path.take (n.PrefixLenBits / 8))).length =
          (hexBytes (m.Path.take (n.PrefixLenBits / 8))).length := by
        rw [hexBytes_length, hexBytes_length,
          List.length_take_of_le hfn, List.length_take_of_le (by omega)]
      obtain ⟨hfull, htail⟩ := List.append_inj hrest hlen2
      first
      | exact hexBytes_inj _ _ (BytesWF_take hn _) (BytesWF_take hm _)
          (by rw [List.length_take_of_le hfn, List.length_take_of_le (by omega)])
          hfull
      | ( by_cases h8 : n.PrefixLenBits % 8 = 0
          · exact Or.inl h8
          · refine Or.inr ?_
            rw [if_pos (by omega), if_pos (by omega)] at htail
            exact hexByte_inj _ _ (land_leftmask_lt _ _) (land_leftmask_lt _ _) htail )
    }
  · rintro ⟨hp, htake, hmask⟩
    unfold NodeID.AsKey
    refine congrArg String.mk ?_
    rw [← hp, htake]
    by_cases h8 : n.PrefixLenBits % 8 = 0
    · rw [if_neg (by omega), if_neg (by omega)]
    · rcases hmask with h | hm2
      · exact absurd h h8
      · rw [if_pos (by omega), if_pos (by omega), hm2]

end AsKeyLemmas

/-- Claim C9: two identifiers produce the same `AsKey` string iff they have
the same `PrefixLenBits` and identical bits in `[0, PrefixLenBits)`; and on
`PrefixLenBits = 9`, `Path = [0xAB, 0xC0]` the key is `"9:ab"` followed by
the hex of `Path[1]` masked to its top bit, i.e. `"9:ab80"`. -/
theorem c9_askey_characterisation (n m : NodeID)
    (hn : BytesWF n.Path) (hm : BytesWF m.Path)
    (hin : n.PrefixLenBits ≤ 8 * n.Path.length)
    (him : m.PrefixLenBits ≤ 8 * m.Path.length) :
    (n.AsKey = m.AsKey ↔
      (n.PrefixLenBits = m.PrefixLenBits ∧
        ∀ i < n.PrefixLenBits, pathBit n.Path i = pathBit m.Path i))
    ∧ NodeID.AsKey ⟨[0xAB, 0xC0], 9⟩ = "9:ab80" := by
  refine ⟨?_, by decide⟩
  rw [askey_eq_iff n m hn hm hin him]
  constructor
  · rintro ⟨hp, hrest⟩
    exact ⟨hp,
      (prefix_bits_iff n.Path m.Path n.PrefixLenBits hn hm hin (by omega)).1 hrest⟩
  · rintro ⟨hp, hbits⟩
    exact ⟨hp,
      (prefix_bits_iff n.Path m.Path n.PrefixLenBits hn hm hin (by omega)).2 hbits⟩

/-- Witness for C9 at two identifiers differing only in padding. -/
theorem c9_witness :
    (NodeID.AsKey ⟨[0x5C], 6⟩ = NodeID.AsKey ⟨[0x5F], 6⟩ ↔
      ((6 : Nat) = 6 ∧ ∀ i < (6 : Nat), pathBit [0x5C] i = pathBit [0x5F] i))
    ∧ NodeID.AsKey ⟨[0xAB, 0xC0], 9⟩ = "9:ab80" :=
  c9_askey_characterisation ⟨[0x5C], 6⟩ ⟨[0x5F], 6⟩ (by decide) (by decide)
    (by decide) (by decide)

/-- Claim C1 counterexample: round-tripping the identifier `([0xFF], 4)`
through `Split 0 8` and `NewNodeIDFromPrefixSuffix` yields `([0xF0], 4)` —
the suffix copy masks the non-significant low bits to zero — so the result
is not byte-for-byte equal to the original path, refuting the claim as
stated (it also admits `prefixLenBits = 8*prefixBytes`, where the Go
`Suffix` method panics). -/
theorem c1_counterexample :
    (NodeID.Split ⟨[0xFF], 4⟩ 0 8).bind
        (fun ps => NewNodeIDFromPrefixSuffix ps.1 ps.2 (NodeID.PathLenBits ⟨[0xFF], 4⟩))
      = some ⟨[0xF0], 4⟩
    ∧ (⟨[0xF0], 4⟩ : NodeID).Path ≠ (⟨[0xFF], 4⟩ : NodeID).Path := by decide

/-- Claim C1 (amended: for `8*prefixBytes` strictly below `PrefixLenBits`,
with the suffix bit-count within the declared capacity and below 256, the
round trip reconstructs the identifier up to canonicalisation: it returns
`MaskLeft PrefixLenBits` of the original, i.e. the same `PrefixLenBits` and
the same path with the non-significant bits zeroed; the path is
byte-for-byte equal to the original exactly when the original padding was
already zero). -/
theorem c1_split_roundtrip (n : NodeID) (prefixBytes suffixBits : Nat)
    (hin : n.PrefixLenBits ≤ 8 * n.Path.length)
    (hLo : 8 * prefixBytes < n.PrefixLenBits)
    (hHi : n.PrefixLenBits - 8 * prefixBytes ≤ suffixBits)
    (hByte : n.PrefixLenBits - 8 * prefixBytes < 256) :
    (n.Split prefixBytes suffixBits).bind
        (fun ps => NewNodeIDFromPrefixSuffix ps.1 ps.2 n.PathLenBits)
      = some (n.MaskLeft n.PrefixLenBits) := by
  have hp1 : n.PrefixLenBits ≠ 0 := by omega
  have hpbL : prefixBytes < n.Path.length := by omega
  have hbpos : 1 ≤ n.PrefixLenBits - prefixBytes * 8 := by omega
  have hL8 : n.PathLenBits / 8 = n.Path.length := by
    unfold NodeID.PathLenBits
    omega
  unfold NodeID.Split
  rw [if_neg hp1]
  unfold NodeID.Suffix
  rw [if_neg hp1, if_neg (by omega : ¬(n.PrefixLenBits ≤ prefixBytes * 8))]
  dsimp only
  rw [if_neg (by omega : ¬(suffixBits < n.PrefixLenBits - prefixBytes * 8))]
  rw [Option.map_some', Option.some_bind]
  unfold NodeID.Prefix
  rw [if_neg hp1]
  unfold NewNodeIDFromPrefixSuffix
  rw [if_neg (by rw [hL8, List.length_take_of_le (by omega)]; omega)]
  dsimp only
  refine congrArg some (nodeid_ext ?_ ?_)
  · -- the recombined path equals the canonicalised path
    set b := n.PrefixLenBits - prefixBytes * 8 with hbdef
    have hBB : bytesForBits b = (b + 7) / 8 := rfl
    have hBP : bytesForBits n.PrefixLenBits = (n.PrefixLenBits + 7) / 8 := rfl
    have hPLB : n.PathLenBits = n.Path.length * 8 := rfl
    have hsB1 : 1 ≤ bytesForBits b := by omega
    have hsplitdb : bytesForBits n.PrefixLenBits = prefixBytes + bytesForBits b := by
      omega
    have hsBle : bytesForBits b ≤ n.Path.length - prefixBytes := by omega
    have hs0len : ((n.Path.drop prefixBytes).take (bytesForBits b)).length =
        bytesForBits b := by
      rw [List.length_take_of_le (by rw [List.length_drop]; omega)]
    have hmidx : (b - 1) / 8 = bytesForBits b - 1 := by omega
    apply list_eq_of_getD
    · simp only [listCopy_length, List.length_replicate, maskLeft_length, hL8]
    · intro i hi
      simp only [listCopy_length, List.length_replicate, hL8] at hi
      rw [listCopy_getD, listCopy_getD, maskLeft_getD n _ (by omega) hin]
      simp only [NewSuffix_path, List.length_take_of_le (le_of_lt hpbL),
        List.length_set, hs0len, List.length_replicate, listCopy_length, hL8,
        getD_replicate, hmidx]
      by_cases c1 : i < prefixBytes
      · rw [if_neg (by omega), if_pos (by omega), Nat.sub_zero,
          getD_take _ _ _ c1, if_pos (by omega)]
      · by_cases c2 : i < prefixBytes + bytesForBits b - 1
        · rw [if_pos ⟨by omega, by omega, by omega⟩,
            getD_set_ne _ _ _ _ (by omega), getD_take _ _ _ (by omega), getD_drop,
            show prefixBytes + (i - prefixBytes) = i by omega,
            if_pos (by omega)]
        · by_cases c3 : i = prefixBytes + bytesForBits b - 1
          · rw [if_pos ⟨by omega, by omega, by omega⟩,
              show i - prefixBytes = bytesForBits b - 1 by omega,
              getD_set_self _ _ _ (by rw [hs0len]; omega),
              getD_take _ _ _ (by omega), getD_drop,
              show prefixBytes + (bytesForBits b - 1) = i by omega,
              sfx_mask_eq_leftmask b hbpos,
              show b % 8 = n.PrefixLenBits % 8 by omega,
              if_neg (by omega), if_pos (by omega)]
          · rw [if_neg (by omega), if_neg (by omega),
              if_neg (by omega), if_neg (by omega)]
  · simp only [List.length_take_of_le (le_of_lt hpbL), maskLeft_prefixLenBits,
      NewSuffix_bits]
    omega

/-- Witness for C1 at a concrete identifier split one byte in. -/
theorem c1_witness :
    (NodeID.Split ⟨[0xAB, 0xCD], 13⟩ 1 8).bind
        (fun ps =>
          NewNodeIDFromPrefixSuffix ps.1 ps.2 (NodeID.PathLenBits ⟨[0xAB, 0xCD], 13⟩))
      = some (NodeID.MaskLeft ⟨[0xAB, 0xCD], 13⟩ 13) :=
  c1_split_roundtrip ⟨[0xAB, 0xCD], 13⟩ 1 8 (by decide) (by decide) (by decide)
    (by decide)

/-- Claim C6 counterexample: with depth 100, index 3, maxPathBits 128 the
constructor succeeds, but the `uint64` shift wraps to zero, so the returned
path is all zeros rather than holding the mathematically left-shifted index
big-endian right-aligned; the claim as stated is false. -/
theorem c6_counterexample :
    NewNodeIDForTreeCoords 100 3 128 = some ⟨List.replicate 16 0, 28⟩
    ∧ natToBytesBE (3 * 2 ^ 100) 16 ≠ List.replicate 16 0 := by decide

/-- Claim C6 (amended: the written value is the index left-shifted by
`depth` computed in `uint64`, i.e. reduced modulo 2^64): the constructor
errors iff `depth < 0`, `index < 0`, `maxPathBits % 8 ≠ 0`, or
`bitLength index > maxPathBits - depth`; on success the path has
`maxPathBits/8` bytes holding `(index * 2^depth) mod 2^64` big-endian
right-aligned and `PrefixLenBits = maxPathBits - depth`. -/
theorem c6_tree_coords (depth index maxPathBits : Int)
    (hidx : index < 2 ^ 63) :
    ((NewNodeIDForTreeCoords depth index maxPathBits).isNone ↔
      (depth < 0 ∨ index < 0 ∨ maxPathBits % 8 ≠ 0 ∨
        (Nat.size index.toNat : Int) > maxPathBits - depth))
    ∧ (∀ r, NewNodeIDForTreeCoords depth index maxPathBits = some r →
        r.Path = natToBytesBE ((index.toNat * 2 ^ depth.toNat) % 2 ^ 64)
            ((maxPathBits / 8).toNat)
        ∧ (r.Path.length : Int) = maxPathBits / 8
        ∧ (r.PrefixLenBits : Int) = maxPathBits - depth) := by
  have hbl : index < 0 ∨
      len64 (index % 2 ^ 64).toNat = Nat.size index.toNat := by
    by_cases h : index < 0
    · exact Or.inl h
    · refine Or.inr ?_
      rw [Int.emod_eq_of_lt (by omega) (by
        calc index < 2 ^ 63 := hidx
          _ < 2 ^ 64 := by norm_num)]
      apply len64_eq_size
      omega
  simp only [NewNodeIDForTreeCoords]
  split_ifs with hcond
  · refine ⟨?_, ?_⟩
    · simp only [Option.isNone_none, true_iff]
      rcases hcond with h | h | h | h
      · exact Or.inr (Or.inl h)
      · exact Or.inl h
      · rcases hbl with h2 | h2
        · exact Or.inr (Or.inl h2)
        · rw [h2] at h
          exact Or.inr (Or.inr (Or.inr h))
      · exact Or.inr (Or.inr (Or.inl h))
    · intro r hr
      exact absurd hr (by simp)
  · push_neg at hcond
    obtain ⟨h1, h2, h3, h4⟩ := hcond
    have hsz : (Nat.size index.toNat : Int) ≤ maxPathBits - depth := by
      rcases hbl with h | h
      · omega
      · rw [← h]
        exact h3
    refine ⟨?_, ?_⟩
    · simp only [Option.isNone_some, Bool.false_eq_true, false_iff]
      push_neg
      exact ⟨h2, h1, h4, hsz⟩
    · intro r hr
      simp only [Option.some.injEq] at hr
      subst hr
      refine ⟨rfl, ?_, ?_⟩
      · simp only [natToBytesBE_length]
        rw [Int.toNat_of_nonneg (Int.ediv_nonneg (by omega) (by omega))]
      · simp only
        rw [Int.toNat_of_nonneg (by omega)]

/-- Witness for C6 at the concrete input depth 0, index 19, 16 path bits. -/
theorem c6_witness :
    ((NewNodeIDForTreeCoords 0 19 16).isNone ↔
      ((0 : Int) < 0 ∨ (19 : Int) < 0 ∨ (16 : Int) % 8 ≠ 0 ∨
        (Nat.size (19 : Int).toNat : Int) > 16 - 0))
    ∧ (∀ r, NewNodeIDForTreeCoords 0 19 16 = some r →
        r.Path = natToBytesBE (((19 : Int).toNat * 2 ^ (0 : Int).toNat) % 2 ^ 64)
            (((16 : Int) / 8).toNat)
        ∧ (r.Path.length : Int) = (16 : Int) / 8
        ∧ (r.PrefixLenBits : Int) = 16 - 0) :=
  c6_tree_coords 0 19 16 (by decide)

/-- Claim C2 counterexample: `NewNodeIDFromBigInt` checks no bound between
`depth` and `totalDepth`, so with depth 9 and totalDepth 8 it silently
returns an identifier whose `PrefixLenBits` (9) exceeds `8 * len(Path)`
(8), violating the invariant the claim asserts for all constructors. -/
theorem c2_counterexample :
    NewNodeIDFromBigInt 9 0 8 = some ⟨[0], 9⟩
    ∧ ¬((⟨[0], 9⟩ : NodeID).PrefixLenBits ≤ 8 * (⟨[0], 9⟩ : NodeID).Path.length) := by
  decide

/-- Claim C2 (amended: `NewNodeIDFromHash` and `NewNodeIDForTreeCoords`
always satisfy the invariant `PrefixLenBits ≤ 8*len(Path)`, and each
constructor fails on its stated alignment or range preconditions; but
`NewNodeIDFromBigInt`, `NewNodeIDFromPrefix` and `NewNodeIDFromPrefixSuffix`
do not check that the depth or prefix-plus-suffix width fits the buffer, and
satisfy the invariant only under the additional caller obligations
`depth ≤ totalDepth`, `8*len(prefix)+depth ≤ totalDepth`, and
`8*len(prefix)+suffix.bits ≤ maxPathBits` with byte-aligned `maxPathBits`
respectively). -/
theorem c2_constructor_invariants :
    (∀ h : List Nat,
      (NewNodeIDFromHash h).PrefixLenBits ≤ 8 * (NewNodeIDFromHash h).Path.length)
    ∧ (∀ depth index maxPathBits : Int, ∀ r : NodeID,
        NewNodeIDForTreeCoords depth index maxPathBits = some r →
        r.PrefixLenBits ≤ 8 * r.Path.length)
    ∧ (∀ depth index totalDepth : Nat,
        ((NewNodeIDFromBigInt depth index totalDepth).isNone ↔
          (totalDepth % 8 ≠ 0 ∨ totalDepth = 0))
        ∧ (∀ r, NewNodeIDFromBigInt depth index totalDepth = some r →
            depth ≤ totalDepth → r.PrefixLenBits ≤ 8 * r.Path.length))
    ∧ (∀ pfx depth index subDepth totalDepth (r : NodeID),
        NewNodeIDFromPrefix pfx depth index subDepth totalDepth = some r →
        8 * pfx.length + depth ≤ totalDepth →
        r.PrefixLenBits ≤ 8 * r.Path.length)
    ∧ (∀ pfx (s : Trillian.Suffix) maxPathBits (r : NodeID),
        NewNodeIDFromPrefixSuffix pfx s maxPathBits = some r →
        maxPathBits % 8 = 0 →
        8 * pfx.length + s.bits ≤ maxPathBits →
        r.PrefixLenBits ≤ 8 * r.Path.length) := by
  refine ⟨?_, ?_, ?_, ?_, ?_⟩
  · intro h
    simp only [NewNodeIDFromHash]
    omega
  · intro depth index maxPathBits r hr
    simp only [NewNodeIDForTreeCoords] at hr
    split_ifs at hr with hcond
    push_neg at hcond
    obtain ⟨h1, h2, h3, h4⟩ := hcond
    simp only [Option.some.injEq] at hr
    subst hr
    simp only [natToBytesBE_length]
    have hsz : (0 : Int) ≤ maxPathBits - depth := le_trans (by positivity) h3
    omega
  · intro depth index totalDepth
    constructor
    · unfold NewNodeIDFromBigInt
      split_ifs with g1 g2 <;> simp_all
    · intro r hr hdep
      unfold NewNodeIDFromBigInt at hr
      split_ifs at hr with g1 g2
      simp only [Option.some.injEq] at hr
      subst hr
      simp only [natToBytesBE_length]
      omega
  · intro pfx depth index subDepth totalDepth r hr hbound
    unfold NewNodeIDFromPrefix at hr
    split_ifs at hr with g1 g2 g3 g4
    simp only [Option.some.injEq] at hr
    subst hr
    simp only [listCopy_length, List.length_replicate]
    omega
  · intro pfx s maxPathBits r hr halign hbound
    unfold NewNodeIDFromPrefixSuffix at hr
    split_ifs at hr with g1
    simp only [Option.some.injEq] at hr
    subst hr
    simp only [listCopy_length, List.length_replicate]
    omega

/-- Witness for C2: each conjunct at a concrete construction. -/
theorem c2_witness :
    (NewNodeIDFromHash [0xAB]).PrefixLenBits ≤ 8 * (NewNodeIDFromHash [0xAB]).Path.length
    ∧ (⟨[0x00, 0x13], 16⟩ : NodeID).PrefixLenBits ≤
        8 * (⟨[0x00, 0x13], 16⟩ : NodeID).Path.length
    ∧ ((NewNodeIDFromBigInt 8 0 8).isNone ↔ ((8 : Nat) % 8 ≠ 0 ∨ (8 : Nat) = 0))
    ∧ (⟨[0], 8⟩ : NodeID).PrefixLenBits ≤ 8 * (⟨[0], 8⟩ : NodeID).Path.length
    ∧ (⟨[0xAB, 0], 11⟩ : NodeID).PrefixLenBits ≤
        8 * (⟨[0xAB, 0], 11⟩ : NodeID).Path.length
    ∧ (⟨[0xAB, 0xC0], 12⟩ : NodeID).PrefixLenBits ≤
        8 * (⟨[0xAB, 0xC0], 12⟩ : NodeID).Path.length :=
  ⟨c2_constructor_invariants.1 [0xAB],
   c2_constructor_invariants.2.1 0 19 16 ⟨[0x00, 0x13], 16⟩ (by decide),
   (c2_constructor_invariants.2.2.1 8 0 8).1,
   (c2_constructor_invariants.2.2.1 8 0 8).2 ⟨[0], 8⟩ (by decide) (by decide),
   c2_constructor_invariants.2.2.2.1 [0xAB] 3 0 8 16 ⟨[0xAB, 0], 11⟩
     (by decide) (by decide),
   c2_constructor_invariants.2.2.2.2 [0xAB] ⟨4, [0xC0]⟩ 16 ⟨[0xAB, 0xC0], 12⟩
     (by decide) (by decide) (by decide)⟩

end Trillian
